import Mathlib

/-!
Shallow embedding of the us-constitution repository's build-time content
generator (`scripts/build-content.mjs`) and client-side filter layer
(`src/app.js`), together with theorems checking the specification's claims.

JavaScript values reachable from `JSON.parse` output (plus `undefined` for
missing object properties) are modelled by `JSValue`.  JavaScript numbers are
modelled by `Int` (the canonical data uses integer positions and locators);
`Number(...)` coercions that produce `NaN` are modelled by `Option Int` with
`none` for `NaN`.  Strings are Lean `String`s; `String.prototype.toLowerCase`
is modelled ASCII-wise by `jsToLower`.
-/

namespace USConst

/-- A JavaScript value as produced by `JSON.parse`, plus `undefined`
(the result of reading a missing object property). -/
inductive JSValue where
  | null
  | undefined
  | bool (b : Bool)
  | num (n : Int)
  | str (s : String)
  | arr (elems : List JSValue)
  | obj (fields : List (String × JSValue))

/-- `value === null || value === undefined` (the complement of what
`value ?? d` and `!== null && !== undefined` keep). -/
def jsNullish : JSValue → Bool
  | .null => true
  | .undefined => true
  | _ => false

/-- `value ?? fallback`. -/
def nullishCoalesce (v fallback : JSValue) : JSValue :=
  if jsNullish v then fallback else v

/-- Property read `v[k]`: defined on objects, `undefined` otherwise. -/
def getField (v : JSValue) (k : String) : JSValue :=
  match v with
  | .obj fields =>
    match fields.lookup k with
    | some w => w
    | none => .undefined
  | _ => .undefined

/-- `!v || typeof v !== "object"` is false exactly on arrays and objects
(`typeof null` is "object" but `!null` is true). -/
def isObjLike : JSValue → Bool
  | .arr _ => true
  | .obj _ => true
  | _ => false

mutual

/-- `String(value)`: JS string coercion.  Arrays join their elements with
",", stringifying `null`/`undefined` elements to the empty string. -/
def jsToString : JSValue → String
  | .null => "null"
  | .undefined => "undefined"
  | .bool true => "true"
  | .bool false => "false"
  | .num n => toString n
  | .str s => s
  | .arr xs => String.intercalate "," (jsArrElems xs)
  | .obj _ => "[object Object]"

/-- Element stringification used by `Array.prototype.join`. -/
def jsArrElems : List JSValue → List String
  | [] => []
  | v :: vs =>
    (match v with
     | .null => ""
     | .undefined => ""
     | w => jsToString w) :: jsArrElems vs

end

/-- Numeric value of a string of decimal digits. -/
def digitsVal (ds : List Char) : Nat :=
  ds.foldl (fun acc c => acc * 10 + (c.toNat - '0'.toNat)) 0

/-- `Number(s)` for a string `s`, restricted to the integer literals the
repository's data uses: optional sign and decimal digits after trimming;
the empty (trimmed) string is `0`; anything else is `NaN` (`none`). -/
def parseNumber (s : String) : Option Int :=
  let t := (s.data.dropWhile Char.isWhitespace).reverse.dropWhile Char.isWhitespace |>.reverse
  if t.isEmpty then some 0
  else
    match t with
    | '-' :: ds =>
      if !ds.isEmpty && ds.all Char.isDigit then some (-(digitsVal ds : Int)) else none
    | '+' :: ds =>
      if !ds.isEmpty && ds.all Char.isDigit then some (digitsVal ds : Int) else none
    | ds =>
      if ds.all Char.isDigit then some (digitsVal ds : Int) else none

/-- `Number(value)`: JS numeric coercion, `none` for `NaN`. -/
def jsToNumber : JSValue → Option Int
  | .null => some 0
  | .undefined => none
  | .bool b => some (if b then 1 else 0)
  | .num n => some n
  | .str s => parseNumber s
  | .arr xs => parseNumber (jsToString (.arr xs))
  | .obj _ => none

/-- ASCII lower-casing of one character (model of `toLowerCase`). -/
def lowerChar (c : Char) : Char :=
  if 'A' ≤ c && c ≤ 'Z' then Char.ofNat (c.toNat + 32) else c

/-- Model of `String.prototype.toLowerCase` (ASCII). -/
def jsToLower (s : String) : String :=
  String.mk (s.data.map lowerChar)

/-- Model of `String.prototype.trim` on character lists. -/
def trimChars (xs : List Char) : List Char :=
  ((xs.dropWhile Char.isWhitespace).reverse.dropWhile Char.isWhitespace).reverse

/-- Model of `String.prototype.trim`. -/
def jsTrim (s : String) : String :=
  String.mk (trimChars s.data)

/-- `valueOrNull` of build-content.mjs: keep a value only when
`typeof value === "number"`. -/
def valueOrNull : JSValue → Option Int
  | .num n => some n
  | _ => none

/-- `stringOrNull` of build-content.mjs: keep a value only when it is a
non-empty string. -/
def stringOrNull : JSValue → Option String
  | .str s => if s.length > 0 then some s else none
  | _ => none

/-- The anchored regex match on `amend` + captured digits + hyphen used by
`getPart` and `getAmendmentNumber`: `some` of the captured digits' value when
the id starts with `amend`, one or more ASCII digits and a hyphen.  (`\d+` is
greedy, so the digit run is maximal; a shorter run would be followed by a
digit, not the required hyphen.) -/
def amendMatch (id : String) : Option Nat :=
  let cs := id.data
  if "amend".data.isPrefixOf cs then
    let rest := cs.drop 5
    let ds := rest.takeWhile Char.isDigit
    if ds.isEmpty then none
    else
      match rest.drop ds.length with
      | '-' :: _ => some (digitsVal ds)
      | _ => none
  else none

/-- `getPart` of build-content.mjs (applied to the stringified id/type). -/
def getPart (id type : String) : String :=
  if type = "preamble" then "preamble"
  else if type = "amendment" || (amendMatch id).isSome then "amendment"
  else "article"

/-- `getAmendmentNumber` of build-content.mjs. -/
def getAmendmentNumber (id : String) : Option Int :=
  (amendMatch id).map (fun n => (n : Int))

/-- A normalized entry, as produced by `normalize` in build-content.mjs. -/
structure NormalizedEntry where
  id : String
  part : String
  type : String
  article : Option Int
  «section» : Option Int
  clause : Option Int
  subclause : Option Int
  amendmentNumber : Option Int
  isRepealed : Bool
  text : String
  searchTags : List String
  position : Int
  title : String
  ratifiedOn : Option String
  effectiveOn : Option String
  proposedOn : Option String
  repealedOn : Option String
  searchable : String
deriving DecidableEq, Repr

/-- Template-literal rendering of a `number|null` field (`null` prints as
"null", as in `` `Article ${entry.article}` ``). -/
def optNumStr : Option Int → String
  | some n => toString n
  | none => "null"

/-- `buildTitle` of build-content.mjs. -/
def buildTitle (e : NormalizedEntry) : String :=
  if e.part = "preamble" then "Preamble"
  else
    let first :=
      if e.part = "article" then "Article " ++ optNumStr e.article
      else "Amendment " ++ optNumStr e.amendmentNumber
    let pieces :=
      [first]
        ++ (match e.«section» with | some n => ["Section " ++ toString n] | none => [])
        ++ (match e.clause with | some n => ["Clause " ++ toString n] | none => [])
        ++ (match e.subclause with | some n => ["Subclause " ++ toString n] | none => [])
    String.intercalate ", " pieces

/-- Normalization of one raw record: the body of the `.map` callback in
`normalize` of build-content.mjs, with a thrown `Error` modelled as
`Except.error`. -/
def normRecord (r : JSValue) : Except String NormalizedEntry :=
  if isObjLike r = false then
    .error "Encountered invalid record in constitution.json."
  else
    let id := jsToString (nullishCoalesce (getField r "id") (.str ""))
    let type := jsToString (nullishCoalesce (getField r "type") (.str ""))
    let text := jsToString (nullishCoalesce (getField r "text") (.str ""))
    let searchTags :=
      match getField r "searchTags" with
      | .arr tags => tags.map jsToString
      | _ => []
    match jsToNumber (getField r "position") with
    | none => .error "Entry is missing required fields."
    | some position =>
      if id = "" ∨ type = "" ∨ text = "" then
        .error "Entry is missing required fields."
      else
        let base : NormalizedEntry :=
          { id := id
            part := getPart id type
            type := type
            article := valueOrNull (getField r "article")
            «section» := valueOrNull (getField r "section")
            clause := valueOrNull (getField r "clause")
            subclause := valueOrNull (getField r "subclause")
            amendmentNumber := getAmendmentNumber id
            isRepealed := !(jsNullish (getField r "repealedOn"))
            text := text
            searchTags := searchTags
            position := position
            title := ""
            ratifiedOn := stringOrNull (getField r "ratifiedOn")
            effectiveOn := stringOrNull (getField r "effectiveOn")
            proposedOn := stringOrNull (getField r "proposedOn")
            repealedOn := stringOrNull (getField r "repealedOn")
            searchable := "" }
        let withTitle := { base with title := buildTitle base }
        .ok { withTitle with
              searchable :=
                jsToLower (String.intercalate " "
                  ([withTitle.text, withTitle.id] ++ withTitle.searchTags ++ [withTitle.title])) }

/-- Comparator order used by `normalize`'s `.sort((a, b) => a.position - b.position)`. -/
def entryLe (a b : NormalizedEntry) : Prop := a.position ≤ b.position

instance : DecidableRel entryLe := fun a b => inferInstanceAs (Decidable (a.position ≤ b.position))

instance : IsTotal NormalizedEntry entryLe := ⟨fun a b => Int.le_total a.position b.position⟩

instance : IsTrans NormalizedEntry entryLe := ⟨fun _ _ _ h h' => Int.le_trans h h'⟩

/-- Fail-fast normalization of every record (the `.map` in `normalize`;
JS `map` throws at the first invalid record). -/
def normList : List JSValue → Except String (List NormalizedEntry)
  | [] => .ok []
  | r :: rs =>
    match normRecord r with
    | .error m => .error m
    | .ok e =>
      match normList rs with
      | .error m => .error m
      | .ok es => .ok (e :: es)

/-- `normalize` of build-content.mjs: array check, per-record normalization,
then a stable sort by `position` (JS `Array.prototype.sort` is stable;
modelled by insertion sort). -/
def normalize (rawData : JSValue) : Except String (List NormalizedEntry) :=
  match rawData with
  | .arr xs => (normList xs).map (List.insertionSort entryLe)
  | _ => .error "constitution.json must be an array."

/-- Accumulator of `buildToc`'s scan over the entries: the `hasPreamble`
flag and the two insertion-ordered `Set`s of numbers. -/
structure TocAcc where
  hasPreamble : Bool
  articleNumbers : List Int
  amendmentNumbers : List Int
deriving DecidableEq, Repr

/-- `Set.prototype.add`: append if not already present (JS sets keep
insertion order). -/
def insertUnique (xs : List Int) (n : Int) : List Int :=
  if n ∈ xs then xs else xs ++ [n]

/-- One step of `buildToc`'s `for` loop. -/
def tocStep (acc : TocAcc) (e : NormalizedEntry) : TocAcc :=
  { hasPreamble := acc.hasPreamble || e.part == "preamble"
    articleNumbers :=
      if e.part == "article" then
        match e.article with
        | some n => insertUnique acc.articleNumbers n
        | none => acc.articleNumbers
      else acc.articleNumbers
    amendmentNumbers :=
      if e.part == "amendment" then
        match e.amendmentNumber with
        | some n => insertUnique acc.amendmentNumbers n
        | none => acc.amendmentNumbers
      else acc.amendmentNumbers }

/-- The scan over all entries in `buildToc`. -/
def tocCollect (entries : List NormalizedEntry) : TocAcc :=
  entries.foldl tocStep ⟨false, [], []⟩

/-- `[...numbers].sort((a, b) => a - b)`. -/
def sortInts (xs : List Int) : List Int :=
  List.insertionSort (fun a b : Int => a ≤ b) xs

/-- The Preamble item pushed by `buildToc`. -/
def preambleTocItem : String := "<li><a href=\"#part-preamble\">Preamble</a></li>"

/-- The "Part: Articles" group heading pushed by `buildToc`. -/
def articlesGroupItem : String :=
  "<li class=\"toc-group\"><a href=\"#part-articles\">Part: Articles</a></li>"

/-- One article item pushed by `buildToc`. -/
def articleTocItem (n : Int) : String :=
  "<li class=\"toc-subitem\"><a href=\"#part-article-" ++ toString n ++ "\">Article "
    ++ toString n ++ "</a></li>"

/-- The "Part: Amendments" group heading pushed by `buildToc`. -/
def amendmentsGroupItem : String :=
  "<li class=\"toc-group\"><a href=\"#part-amendments\">Part: Amendments</a></li>"

/-- One amendment item pushed by `buildToc`. -/
def amendmentTocItem (n : Int) : String :=
  "<li class=\"toc-subitem\"><a href=\"#part-amendment-" ++ toString n ++ "\">Amendment "
    ++ toString n ++ "</a></li>"

/-- The `parts` array accumulated by `buildToc`. -/
def tocItems (entries : List NormalizedEntry) : List String :=
  let acc := tocCollect entries
  let sortedArticleNumbers := sortInts acc.articleNumbers
  let sortedAmendmentNumbers := sortInts acc.amendmentNumbers
  (if acc.hasPreamble then [preambleTocItem] else [])
    ++ (if sortedArticleNumbers.isEmpty then []
        else articlesGroupItem :: sortedArticleNumbers.map articleTocItem)
    ++ (if sortedAmendmentNumbers.isEmpty then []
        else amendmentsGroupItem :: sortedAmendmentNumbers.map amendmentTocItem)

/-- `buildToc` of build-content.mjs. -/
def buildToc (entries : List NormalizedEntry) : String :=
  "<ol class=\"toc-list\">\n"
    ++ String.intercalate "\n" ((tocItems entries).map (fun item => "  " ++ item))
    ++ "\n</ol>"

/-- Leftmost occurrence of `m` in a list: the text before it and the text
after it.  `none` when `m` does not occur. -/
def findSplit (m : List Char) : List Char → Option (List Char × List Char)
  | [] => if m.isPrefixOf ([] : List Char) then some ([], []) else none
  | c :: rest =>
    if m.isPrefixOf (c :: rest) then some ([], (c :: rest).drop m.length)
    else (findSplit m rest).map (fun p => (c :: p.1, p.2))

/-- ECMAScript `GetSubstitution` for a string replacement template under a
regex with no capture groups: `$$` inserts a dollar sign, `$&` the matched
substring, `$` + backquote (character 96) the text before the match, `$'`
the text after the match; every other occurrence of `$` (end of template,
`$<`, digits — there are no capture groups) is literal. -/
def getSubstitution (matched before after : List Char) : List Char → List Char
  | [] => []
  | ch :: rest =>
    if ch = '$' then
      match rest with
      | [] => ['$']
      | c2 :: rest2 =>
        if c2 = '$' then '$' :: getSubstitution matched before after rest2
        else if c2 = '&' then matched ++ getSubstitution matched before after rest2
        else if c2 = Char.ofNat 96 then before ++ getSubstitution matched before after rest2
        else if c2 = '\'' then after ++ getSubstitution matched before after rest2
        else '$' :: c2 :: getSubstitution matched before after rest2
    else ch :: getSubstitution matched before after rest

/-- `injectGenerated` of build-content.mjs: the lazy regex
`start[\s\S]*?end` matches from the leftmost start-marker occurrence that is
followed by the end marker through the nearest subsequent end marker; the
match is replaced by the template `start\ncontent\nend` as a JS string
replacement (so the template is subject to `getSubstitution`), and a missing
marker pair throws. -/
def injectGenerated (sourceHtml startMarker endMarker content : List Char) :
    Except String (List Char) :=
  match findSplit startMarker sourceHtml with
  | none => .error "Missing marker pair"
  | some (pre, rest) =>
    match findSplit endMarker rest with
    | none => .error "Missing marker pair"
    | some (mid, post) =>
      .ok (pre
        ++ getSubstitution (startMarker ++ mid ++ endMarker) pre post
            (startMarker ++ '\n' :: content ++ '\n' :: endMarker)
        ++ post)

/-- `m` occurs in `xs` at index `i`. -/
def occursAt (m xs : List Char) (i : Nat) : Prop :=
  m.isPrefixOf (xs.drop i) = true

/-- `String(x).replace(/c/g, rep)` for a single-character pattern. -/
def replaceAllChar (xs : List Char) (c : Char) (rep : List Char) : List Char :=
  xs.flatMap (fun ch => if ch = c then rep else [ch])

/-- `escapeHtml` of build-content.mjs: the five global replacements applied
in source order. -/
def escapeHtml (value : String) : String :=
  String.mk
    (replaceAllChar
      (replaceAllChar
        (replaceAllChar
          (replaceAllChar
            (replaceAllChar value.data '&' "&amp;".data)
            '<' "&lt;".data)
          '>' "&gt;".data)
        '"' "&quot;".data)
      '\'' "&#39;".data)

/-- Single-pass character escaping; proved equal to the chained global
replacements of `escapeHtml`. -/
def escChar (c : Char) : List Char :=
  if c = '&' then "&amp;".data
  else if c = '<' then "&lt;".data
  else if c = '>' then "&gt;".data
  else if c = '"' then "&quot;".data
  else if c = '\'' then "&#39;".data
  else [c]

/-- The five HTML entities `escapeHtml` emits. -/
def htmlEntities : List (List Char) :=
  ["&amp;".data, "&lt;".data, "&gt;".data, "&quot;".data, "&#39;".data]

/-- Every `&` in `ys` begins one of the five entities. -/
def ampGood (ys : List Char) : Prop :=
  ∀ i : Nat, ys[i]? = some '&' → ∃ ent, ent ∈ htmlEntities ∧ ent <+: ys.drop i

/-- The client-side filter state of app.js. -/
structure FilterState where
  q : String
  part : String
  article : String
  amendment : String
  status : String
deriving DecidableEq, Repr

/-- `DEFAULTS` of app.js. -/
def DEFAULTS : FilterState :=
  { q := "", part := "all", article := "all", amendment := "all", status := "all" }

/-- The allowed `part` filter values of `sanitizeState`. -/
def allowedParts : List String := ["all", "preamble", "article", "amendment"]

/-- The allowed `status` filter values of `sanitizeState`. -/
def allowedStatus : List String := ["all", "active", "repealed"]

/-- `sanitizeState` of app.js.  The JS `Set`s of select values are modelled
as lists; `{ ...DEFAULTS, ...raw }` is the identity on a full state. -/
def sanitizeState (raw : FilterState) (articleValues amendmentValues : List String) :
    FilterState :=
  { part := if raw.part ∈ allowedParts then raw.part else DEFAULTS.part
    status := if raw.status ∈ allowedStatus then raw.status else DEFAULTS.status
    article := if raw.article ∈ articleValues then raw.article else DEFAULTS.article
    amendment :=
      if raw.amendment ∈ amendmentValues then raw.amendment else DEFAULTS.amendment
    q := jsTrim raw.q }

/-- A search-index record, with the fields `matchesEntry` reads. -/
structure SearchEntry where
  id : String
  part : String
  article : Option Int
  amendmentNumber : Option Int
  isRepealed : Bool
  searchable : String
deriving DecidableEq, Repr

/-- JS strict equality `a === b` between a `number|null` field and a
possibly-`NaN` number: true only for two equal numbers. -/
def jsNumEq : Option Int → Option Int → Bool
  | some a, some b => a == b
  | _, _ => false

/-- `String.prototype.includes`. -/
def strIncludes (hay needle : String) : Bool :=
  decide (needle.data <:+: hay.data)

/-- `matchesEntry` of app.js. -/
def matchesEntry (entry : SearchEntry) (state : FilterState) : Bool :=
  if state.part != "all" && entry.part != state.part then false
  else if state.article != "all" && !(jsNumEq entry.article (parseNumber state.article)) then
    false
  else if state.amendment != "all"
      && !(jsNumEq entry.amendmentNumber (parseNumber state.amendment)) then
    false
  else if state.status == "active" && entry.isRepealed then false
  else if state.status == "repealed" && !entry.isRepealed then false
  else if state.q != "" && !(strIncludes entry.searchable (jsToLower state.q)) then false
  else true

/-- `writeStateToUrl` of app.js, modelled as the ordered key/value pairs the
`URLSearchParams` receives. -/
def writeStateToUrl (state : FilterState) : List (String × String) :=
  (if state.q != "" then [("q", state.q)] else [])
    ++ (if state.part != "all" then [("part", state.part)] else [])
    ++ (if state.article != "all" then [("article", state.article)] else [])
    ++ (if state.amendment != "all" then [("amendment", state.amendment)] else [])
    ++ (if state.status != "all" then [("status", state.status)] else [])

/-- `URLSearchParams.prototype.get`: first value for the key, else null. -/
def paramGet (params : List (String × String)) (k : String) : Option String :=
  params.lookup k

/-- `x || d` for `x : string | null`. -/
def jsOrDefault (v : Option String) (d : String) : String :=
  match v with
  | some s => if s = "" then d else s
  | none => d

/-- `getStateFromParams` of app.js (over a parsed query string). -/
def getStateFromParams (params : List (String × String))
    (articleValues amendmentValues : List String) : FilterState :=
  sanitizeState
    { q := jsOrDefault (paramGet params "q") ""
      part := jsOrDefault (paramGet params "part") DEFAULTS.part
      article := jsOrDefault (paramGet params "article") DEFAULTS.article
      amendment := jsOrDefault (paramGet params "amendment") DEFAULTS.amendment
      status := jsOrDefault (paramGet params "status") DEFAULTS.status }
    articleValues amendmentValues

/-- The condition under which `normalize` rejects one raw record: it is not
a non-null object, or its `id`, `type` or `text` stringifies (after `?? ""`)
to the empty string, or `Number(position)` is `NaN`. -/
def badRecord (r : JSValue) : Prop :=
  isObjLike r = false
    ∨ jsToString (nullishCoalesce (getField r "id") (.str "")) = ""
    ∨ jsToString (nullishCoalesce (getField r "type") (.str "")) = ""
    ∨ jsToString (nullishCoalesce (getField r "text") (.str "")) = ""
    ∨ jsToNumber (getField r "position") = none

/-- A concrete raw article record (used by concrete witnesses). -/
def sampleRecA : JSValue :=
  .obj [("id", .str "art1-s1"), ("type", .str "article"), ("text", .str "Txt A"),
    ("position", .num 20), ("article", .num 1), ("section", .num 1)]

/-- A concrete raw amendment record with a repeal date. -/
def sampleRecB : JSValue :=
  .obj [("id", .str "amend2-s0"), ("type", .str "amendment"), ("text", .str "Txt B"),
    ("position", .num 10), ("repealedOn", .str "1933-12-05")]

/-- A concrete raw record whose `repealedOn` is the empty string. -/
def sampleRecEmptyRepeal : JSValue :=
  .obj [("id", .str "art9"), ("type", .str "article"), ("text", .str "t"),
    ("position", .num 1), ("repealedOn", .str "")]

/-- The normalization of `sampleRecA`. -/
def sampleEntryA : NormalizedEntry :=
  { id := "art1-s1", part := "article", type := "article", article := some 1,
    «section» := some 1, clause := none, subclause := none, amendmentNumber := none,
    isRepealed := false, text := "Txt A", searchTags := [], position := 20,
    title := "Article 1, Section 1", ratifiedOn := none, effectiveOn := none,
    proposedOn := none, repealedOn := none,
    searchable := "txt a art1-s1 article 1, section 1" }

/-- The normalization of `sampleRecB`. -/
def sampleEntryB : NormalizedEntry :=
  { id := "amend2-s0", part := "amendment", type := "amendment", article := none,
    «section» := none, clause := none, subclause := none, amendmentNumber := some 2,
    isRepealed := true, text := "Txt B", searchTags := [], position := 10,
    title := "Amendment 2", ratifiedOn := none, effectiveOn := none,
    proposedOn := none, repealedOn := some "1933-12-05",
    searchable := "txt b amend2-s0 amendment 2" }

/-- The normalization of `sampleRecEmptyRepeal`: `isRepealed` is true while
the normalized `repealedOn` is `none`. -/
def sampleEntryEmptyRepeal : NormalizedEntry :=
  { id := "art9", part := "article", type := "article", article := none,
    «section» := none, clause := none, subclause := none, amendmentNumber := none,
    isRepealed := true, text := "t", searchTags := [], position := 1,
    title := "Article null", ratifiedOn := none, effectiveOn := none,
    proposedOn := none, repealedOn := none, searchable := "t art9 article null" }

end USConst

/-! ## Theorems -/

namespace USConst

/-- Dropping a prefix of `p`-satisfying elements is idempotent. -/
theorem dropWhile_dropWhile (p : Char → Bool) (l : List Char) :
    (l.dropWhile p).dropWhile p = l.dropWhile p := by
  induction l with
  | nil => rfl
  | cons c cs ih => by_cases h : p c <;> simp [List.dropWhile_cons, h, ih]

/-- A list already stripped of its leading `p`-run is unchanged by `dropWhile`. -/
theorem dropWhile_eq_self_of_prefix (p : Char → Bool) (t a : List Char)
    (hpre : t <+: a) (ha : a.dropWhile p = a) : t.dropWhile p = t := by
  cases t with
  | nil => rfl
  | cons c t' =>
    obtain ⟨u, hu⟩ := hpre
    have hpc : p c = false := by
      by_contra hpc
      rw [Bool.not_eq_false] at hpc
      have hlen := (List.dropWhile_suffix (l := t' ++ u) p).length_le
      rw [← hu] at ha
      simp only [List.cons_append, List.dropWhile_cons, hpc, if_true] at ha
      have hlth := congrArg List.length ha
      simp only [List.length_cons, List.length_append] at hlth hlen
      omega
    simp [List.dropWhile_cons, hpc]

/-- `trimChars` is idempotent. -/
theorem trimChars_idem (xs : List Char) : trimChars (trimChars xs) = trimChars xs := by
  unfold trimChars
  set p := Char.isWhitespace with hp
  set a := xs.dropWhile p with hadef
  set b := a.reverse.dropWhile p with hbdef
  have hauto : a.dropWhile p = a := by rw [hadef]; exact dropWhile_dropWhile p xs
  have hpre : b.reverse <+: a := by
    have hsuf : b <:+ a.reverse := by rw [hbdef]; exact List.dropWhile_suffix p
    have h2 : b.reverse <+: a.reverse.reverse := List.reverse_prefix.mpr hsuf
    rwa [List.reverse_reverse] at h2
  have h1 : b.reverse.dropWhile p = b.reverse :=
    dropWhile_eq_self_of_prefix p b.reverse a hpre hauto
  rw [h1, List.reverse_reverse, hbdef, dropWhile_dropWhile]

/-- `jsTrim` is idempotent. -/
theorem jsTrim_idem (s : String) : jsTrim (jsTrim s) = jsTrim s := by
  apply String.ext
  show trimChars (trimChars s.data) = trimChars s.data
  exact trimChars_idem s.data

/-- Two filter states with equal fields are equal. -/
theorem filterStateExt (a b : FilterState) (hq : a.q = b.q) (hp : a.part = b.part)
    (ha : a.article = b.article) (hm : a.amendment = b.amendment)
    (hs : a.status = b.status) : a = b := by
  cases a; cases b; simp_all

/-- C9.  `sanitizeState` is idempotent, and the state it returns has `part`
and `status` in their allowed sets and a trimmed `q`; its `article`
(resp. `amendment`) is a member of `articleValues` (resp. `amendmentValues`)
provided that set contains `"all"` (the app always seeds both sets with
`"all"`; for a set without `"all"` the fallback value `"all"` lies outside
the set, so the membership clause of the original claim needs that proviso). -/
theorem sanitizeState_idem_and_ranges (raw : FilterState) (av mv : List String) :
    sanitizeState (sanitizeState raw av mv) av mv = sanitizeState raw av mv
    ∧ (sanitizeState raw av mv).part ∈ allowedParts
    ∧ (sanitizeState raw av mv).status ∈ allowedStatus
    ∧ jsTrim (sanitizeState raw av mv).q = (sanitizeState raw av mv).q
    ∧ ("all" ∈ av → (sanitizeState raw av mv).article ∈ av)
    ∧ ("all" ∈ mv → (sanitizeState raw av mv).amendment ∈ mv) := by
  have hq : ∀ r a m, (sanitizeState r a m).q = jsTrim r.q := fun _ _ _ => rfl
  have hpart : ∀ r a m, (sanitizeState r a m).part
      = if r.part ∈ allowedParts then r.part else "all" := fun _ _ _ => rfl
  have hstat : ∀ r a m, (sanitizeState r a m).status
      = if r.status ∈ allowedStatus then r.status else "all" := fun _ _ _ => rfl
  have hart : ∀ r a m, (sanitizeState r a m).article
      = if r.article ∈ a then r.article else "all" := fun _ _ _ => rfl
  have hamd : ∀ r a m, (sanitizeState r a m).amendment
      = if r.amendment ∈ m then r.amendment else "all" := fun _ _ _ => rfl
  refine ⟨?_, ?_, ?_, ?_, ?_, ?_⟩
  · apply filterStateExt
    · simp only [hq]; rw [jsTrim_idem]
    · simp only [hpart]
      by_cases h : raw.part ∈ allowedParts
      · rw [if_pos h, if_pos h]
      · rw [if_neg h, if_pos (by decide : ("all" : String) ∈ allowedParts)]
    · simp only [hart]
      by_cases h : raw.article ∈ av
      · rw [if_pos h, if_pos h]
      · rw [if_neg h]; exact ite_self "all"
    · simp only [hamd]
      by_cases h : raw.amendment ∈ mv
      · rw [if_pos h, if_pos h]
      · rw [if_neg h]; exact ite_self "all"
    · simp only [hstat]
      by_cases h : raw.status ∈ allowedStatus
      · rw [if_pos h, if_pos h]
      · rw [if_neg h, if_pos (by decide : ("all" : String) ∈ allowedStatus)]
  · rw [hpart]
    by_cases h : raw.part ∈ allowedParts
    · rwa [if_pos h]
    · rw [if_neg h]; decide
  · rw [hstat]
    by_cases h : raw.status ∈ allowedStatus
    · rwa [if_pos h]
    · rw [if_neg h]; decide
  · rw [hq, jsTrim_idem]
  · intro hall
    rw [hart]
    by_cases h : raw.article ∈ av
    · rwa [if_pos h]
    · rwa [if_neg h]
  · intro hall
    rw [hamd]
    by_cases h : raw.amendment ∈ mv
    · rwa [if_pos h]
    · rwa [if_neg h]

/-- C9 counterexample.  Over an `articleValues` set without `"all"` (here
the empty set), the state `sanitizeState` returns has `article = "all"`,
which is not a member of the set — so the membership clause of the claim as
stated (for arbitrary value sets) fails. -/
theorem sanitizeState_range_cex :
    (sanitizeState { q := "", part := "all", article := "x", amendment := "all", status := "all" }
        [] []).article ∉ ([] : List String) := by
  simp


/-- The query-string pairs `writeStateToUrl` emits, read back per key:
each field is present exactly when it differs from its default. -/
theorem paramGet_write (s : FilterState) :
    paramGet (writeStateToUrl s) "q" = (if s.q = "" then none else some s.q)
    ∧ paramGet (writeStateToUrl s) "part" = (if s.part = "all" then none else some s.part)
    ∧ paramGet (writeStateToUrl s) "article" = (if s.article = "all" then none else some s.article)
    ∧ paramGet (writeStateToUrl s) "amendment"
        = (if s.amendment = "all" then none else some s.amendment)
    ∧ paramGet (writeStateToUrl s) "status" = (if s.status = "all" then none else some s.status) := by
  unfold writeStateToUrl paramGet
  by_cases h1 : s.q = "" <;> by_cases h2 : s.part = "all" <;> by_cases h3 : s.article = "all" <;>
    by_cases h4 : s.amendment = "all" <;> by_cases h5 : s.status = "all" <;>
      simp [h1, h2, h3, h4, h5, List.lookup]

/-- A member of `allowedParts` or `allowedStatus` is a non-empty string. -/
theorem mem_allowed_ne_empty (p : String)
    (h : p ∈ allowedParts ∨ p ∈ allowedStatus) : p ≠ "" := by
  rcases h with h | h <;> simp [allowedParts, allowedStatus] at h <;>
    rcases h with rfl | rfl | rfl | rfl <;> decide

/-- A member of `allowedParts` or `allowedStatus` is a non-empty string
(three-element variant used below). -/
theorem mem_allowedStatus_ne_empty (p : String) (h : p ∈ allowedStatus) : p ≠ "" := by
  simp [allowedStatus] at h
  rcases h with rfl | rfl | rfl <;> decide

/-- C3 (amended).  Writing a sanitized filter state to the query string and
reading it back restores the state, and default-valued fields are omitted
from the query string; this needs the allowed value sets to contain no empty
string (true of the app's sets, which hold `"all"` and decimal number
strings), since `params.get(k) || default` turns a present-but-empty value
back into the default. -/
theorem url_state_roundtrip (state : FilterState) (av mv : List String)
    (hpart : state.part ∈ allowedParts) (hstatus : state.status ∈ allowedStatus)
    (hart : state.article ∈ av) (hamd : state.amendment ∈ mv)
    (hq : jsTrim state.q = state.q)
    (hav : "" ∉ av) (hmv : "" ∉ mv) :
    getStateFromParams (writeStateToUrl state) av mv = state
    ∧ (state.q = "" → paramGet (writeStateToUrl state) "q" = none)
    ∧ (state.part = "all" → paramGet (writeStateToUrl state) "part" = none)
    ∧ (state.article = "all" → paramGet (writeStateToUrl state) "article" = none)
    ∧ (state.amendment = "all" → paramGet (writeStateToUrl state) "amendment" = none)
    ∧ (state.status = "all" → paramGet (writeStateToUrl state) "status" = none) := by
  obtain ⟨hg1, hg2, hg3, hg4, hg5⟩ := paramGet_write state
  refine ⟨?_, fun h => by rw [hg1, if_pos h], fun h => by rw [hg2, if_pos h],
    fun h => by rw [hg3, if_pos h], fun h => by rw [hg4, if_pos h],
    fun h => by rw [hg5, if_pos h]⟩
  unfold getStateFromParams
  rw [hg1, hg2, hg3, hg4, hg5]
  have hpne : state.part ≠ "" := mem_allowed_ne_empty state.part (Or.inl hpart)
  have hsne : state.status ≠ "" := mem_allowedStatus_ne_empty state.status hstatus
  have hane : state.article ≠ "" := fun h => hav (h ▸ hart)
  have hmne : state.amendment ≠ "" := fun h => hmv (h ▸ hamd)
  apply filterStateExt
  · show jsTrim (jsOrDefault (if state.q = "" then none else some state.q) "") = state.q
    by_cases h : state.q = ""
    · rw [if_pos h, h]; rfl
    · rw [if_neg h]
      simp only [jsOrDefault, if_neg h]
      exact hq
  · show (if jsOrDefault (if state.part = "all" then none else some state.part) DEFAULTS.part
        ∈ allowedParts then _ else _) = state.part
    by_cases h : state.part = "all"
    · rw [if_pos h]
      simp only [jsOrDefault, DEFAULTS]
      rw [if_pos (by decide : ("all" : String) ∈ allowedParts), h]
    · rw [if_neg h]
      simp only [jsOrDefault, DEFAULTS, if_neg hpne]
      rw [if_pos hpart]
  · show (if jsOrDefault (if state.article = "all" then none else some state.article)
        DEFAULTS.article ∈ av then _ else _) = state.article
    by_cases h : state.article = "all"
    · rw [if_pos h]
      simp only [jsOrDefault, DEFAULTS]
      rw [ite_self, h]
    · rw [if_neg h]
      simp only [jsOrDefault, DEFAULTS, if_neg hane]
      rw [if_pos hart]
  · show (if jsOrDefault (if state.amendment = "all" then none else some state.amendment)
        DEFAULTS.amendment ∈ mv then _ else _) = state.amendment
    by_cases h : state.amendment = "all"
    · rw [if_pos h]
      simp only [jsOrDefault, DEFAULTS]
      rw [ite_self, h]
    · rw [if_neg h]
      simp only [jsOrDefault, DEFAULTS, if_neg hmne]
      rw [if_pos hamd]
  · show (if jsOrDefault (if state.status = "all" then none else some state.status)
        DEFAULTS.status ∈ allowedStatus then _ else _) = state.status
    by_cases h : state.status = "all"
    · rw [if_pos h]
      simp only [jsOrDefault, DEFAULTS]
      rw [if_pos (by decide : ("all" : String) ∈ allowedStatus), h]
    · rw [if_neg h]
      simp only [jsOrDefault, DEFAULTS, if_neg hsne]
      rw [if_pos hstatus]

/-- C3 witness: a concrete sanitized state round-trips through the query
string, and its default-valued fields are omitted. -/
theorem url_state_roundtrip_witness :
    getStateFromParams
        (writeStateToUrl
          { q := "hi", part := "article", article := "1", amendment := "all", status := "all" })
        ["all", "1"] ["all", "2"]
      = { q := "hi", part := "article", article := "1", amendment := "all", status := "all" } :=
  (url_state_roundtrip
    { q := "hi", part := "article", article := "1", amendment := "all", status := "all" }
    ["all", "1"] ["all", "2"] (by decide) (by decide) (by decide) (by decide) (by decide)
    (by decide) (by decide)).1

/-- C3 counterexample.  Over a value set containing the empty string, a
sanitized state with `article = ""` does not round-trip: the written pair
`("article", "")` reads back as the default `"all"`.  So the claim fails
for arbitrary value sets and needs the no-empty-member proviso. -/
theorem url_state_roundtrip_cex :
    getStateFromParams
        (writeStateToUrl
          { q := "", part := "all", article := "", amendment := "all", status := "all" })
        ["all", ""] ["all"]
      ≠ { q := "", part := "all", article := "", amendment := "all", status := "all" } := by
  decide


/-- `jsNumEq` holds exactly when both sides are the same actual number. -/
theorem jsNumEq_true_iff (a b : Option Int) :
    jsNumEq a b = true ↔ ∃ n, a = some n ∧ b = some n := by
  cases a with
  | none => cases b <;> simp [jsNumEq]
  | some x =>
    cases b with
    | none => simp [jsNumEq]
    | some y =>
      simp only [jsNumEq, beq_iff_eq, Option.some.injEq]
      constructor
      · intro h
        exact ⟨y, h, rfl⟩
      · rintro ⟨n, rfl, rfl⟩
        rfl

/-- `strIncludes` decides substring containment. -/
theorem strIncludes_true_iff (hay needle : String) :
    strIncludes hay needle = true ↔ needle.data <:+: hay.data := by
  simp [strIncludes]

/-- C1 (amended).  For a filter state whose `status` lies in the allowed set
(as `sanitizeState` guarantees for every state the app passes to
`matchesEntry`), `matchesEntry` returns true iff all five selection criteria
hold conjunctively.  (For an unsanitized `status` outside the allowed set
the code ignores the status filter, so the restriction is needed.) -/
theorem matchesEntry_iff_criteria (entry : SearchEntry) (state : FilterState)
    (hstatus : state.status ∈ allowedStatus) :
    matchesEntry entry state = true ↔
      ((state.part = "all" ∨ entry.part = state.part)
        ∧ (state.article = "all"
            ∨ ∃ n, parseNumber state.article = some n ∧ entry.article = some n)
        ∧ (state.amendment = "all"
            ∨ ∃ n, parseNumber state.amendment = some n ∧ entry.amendmentNumber = some n)
        ∧ (state.status = "all"
            ∨ (state.status = "active" ∧ entry.isRepealed = false)
            ∨ (state.status = "repealed" ∧ entry.isRepealed = true))
        ∧ (state.q = "" ∨ (jsToLower state.q).data <:+: entry.searchable.data)) := by
  unfold matchesEntry
  split_ifs with h1 h2 h3 h4 h5 h6
  · simp only [Bool.and_eq_true, bne_iff_ne, ne_eq] at h1
    simp only [false_iff]
    rintro ⟨hp, -, -, -, -⟩
    rcases hp with hp | hp
    · exact h1.1 hp
    · exact h1.2 hp
  · simp only [Bool.and_eq_true, bne_iff_ne, ne_eq, Bool.not_eq_true'] at h2
    simp only [false_iff]
    rintro ⟨-, ha, -, -, -⟩
    rcases ha with ha | ⟨n, hn, he⟩
    · exact h2.1 ha
    · rw [(jsNumEq_true_iff _ _).2 ⟨n, he, hn⟩] at h2
      exact absurd h2.2 (by simp)
  · simp only [Bool.and_eq_true, bne_iff_ne, ne_eq, Bool.not_eq_true'] at h3
    simp only [false_iff]
    rintro ⟨-, -, hm, -, -⟩
    rcases hm with hm | ⟨n, hn, he⟩
    · exact h3.1 hm
    · rw [(jsNumEq_true_iff _ _).2 ⟨n, he, hn⟩] at h3
      exact absurd h3.2 (by simp)
  · simp only [Bool.and_eq_true, beq_iff_eq] at h4
    simp only [false_iff]
    rintro ⟨-, -, -, hs, -⟩
    rcases hs with hs | ⟨-, hrep⟩ | ⟨hs, -⟩
    · rw [hs] at h4; exact absurd h4.1 (by decide)
    · rw [h4.2] at hrep; exact absurd hrep (by decide)
    · rw [hs] at h4; exact absurd h4.1 (by decide)
  · simp only [Bool.and_eq_true, beq_iff_eq, Bool.not_eq_true'] at h5
    simp only [false_iff]
    rintro ⟨-, -, -, hs, -⟩
    rcases hs with hs | ⟨hs, -⟩ | ⟨-, hrep⟩
    · rw [hs] at h5; exact absurd h5.1 (by decide)
    · rw [hs] at h5; exact absurd h5.1 (by decide)
    · rw [h5.2] at hrep; exact absurd hrep (by decide)
  · simp only [Bool.and_eq_true, bne_iff_ne, ne_eq, Bool.not_eq_true'] at h6
    simp only [false_iff]
    rintro ⟨-, -, -, -, hqc⟩
    rcases hqc with hqc | hqc
    · exact h6.1 hqc
    · rw [← strIncludes_true_iff] at hqc
      rw [hqc] at h6
      exact absurd h6.2 (by simp)
  · simp only [true_iff]
    simp only [Bool.and_eq_true, bne_iff_ne, ne_eq, Bool.not_eq_true', not_and,
      Bool.not_eq_true, Bool.not_eq_false] at h1 h2 h3 h4 h5 h6
    refine ⟨?_, ?_, ?_, ?_, ?_⟩
    · by_cases hp : state.part = "all"
      · exact Or.inl hp
      · exact Or.inr (not_not.1 (h1 hp))
    · by_cases ha : state.article = "all"
      · exact Or.inl ha
      · have hx : jsNumEq entry.article (parseNumber state.article) = true := h2 ha
        obtain ⟨n, he, hn⟩ := (jsNumEq_true_iff _ _).1 hx
        exact Or.inr ⟨n, hn, he⟩
    · by_cases hm : state.amendment = "all"
      · exact Or.inl hm
      · have hx : jsNumEq entry.amendmentNumber (parseNumber state.amendment) = true := h3 hm
        obtain ⟨n, he, hn⟩ := (jsNumEq_true_iff _ _).1 hx
        exact Or.inr ⟨n, hn, he⟩
    · have hst : state.status = "all" ∨ state.status = "active" ∨ state.status = "repealed" := by
        simpa [allowedStatus] using hstatus
      rcases hst with hs | hs | hs
      · exact Or.inl hs
      · exact Or.inr (Or.inl ⟨hs, h4 (by simp [hs])⟩)
      · exact Or.inr (Or.inr ⟨hs, h5 (by simp [hs])⟩)
    · by_cases hq : state.q = ""
      · exact Or.inl hq
      · exact Or.inr ((strIncludes_true_iff _ _).1 (h6 hq))

/-- C1 witness: the equivalence instantiated at a concrete entry and a
concrete sanitized state. -/
theorem matchesEntry_iff_criteria_witness :
    matchesEntry
        { id := "x", part := "article", article := some 1, amendmentNumber := none,
          isRepealed := false, searchable := "txt a article 1" }
        { q := "TXT", part := "article", article := "1", amendment := "all", status := "active" }
      = true ↔
      ((("article" : String) = "all" ∨ ("article" : String) = "article")
        ∧ (("1" : String) = "all"
            ∨ ∃ n, parseNumber "1" = some n ∧ (some 1 : Option Int) = some n)
        ∧ (("all" : String) = "all"
            ∨ ∃ n, parseNumber "all" = some n ∧ (none : Option Int) = some n)
        ∧ (("active" : String) = "all" ∨ (("active" : String) = "active" ∧ false = false)
            ∨ (("active" : String) = "repealed" ∧ false = true))
        ∧ (("TXT" : String) = "" ∨ (jsToLower "TXT").data <:+: "txt a article 1".data)) :=
  matchesEntry_iff_criteria
    { id := "x", part := "article", article := some 1, amendmentNumber := none,
      isRepealed := false, searchable := "txt a article 1" }
    { q := "TXT", part := "article", article := "1", amendment := "all", status := "active" }
    (by decide)

/-- C1 counterexample.  For a state whose `status` is not one of
all/active/repealed (here "bogus"), `matchesEntry` ignores the status filter
and returns true, while the claim's status criterion is false — so the
biconditional of the claim as stated over every filter state fails. -/
theorem matchesEntry_unsanitized_status_cex :
    ¬ (matchesEntry
          { id := "x", part := "article", article := some 1, amendmentNumber := none,
            isRepealed := false, searchable := "t" }
          { q := "", part := "all", article := "all", amendment := "all", status := "bogus" }
        = true ↔
        ((("all" : String) = "all" ∨ ("article" : String) = "all")
          ∧ (("all" : String) = "all"
              ∨ ∃ n, parseNumber "all" = some n ∧ (some 1 : Option Int) = some n)
          ∧ (("all" : String) = "all"
              ∨ ∃ n, parseNumber "all" = some n ∧ (none : Option Int) = some n)
          ∧ (("bogus" : String) = "all" ∨ (("bogus" : String) = "active" ∧ false = false)
              ∨ (("bogus" : String) = "repealed" ∧ false = true))
          ∧ (("" : String) = "" ∨ (jsToLower "").data <:+: "t".data))) := by
  intro h
  have hm : matchesEntry
      { id := "x", part := "article", article := some 1, amendmentNumber := none,
        isRepealed := false, searchable := "t" }
      { q := "", part := "all", article := "all", amendment := "all", status := "bogus" }
      = true := by decide
  obtain ⟨-, -, -, hs, -⟩ := h.1 hm
  rcases hs with hs | ⟨hs, -⟩ | ⟨hs, -⟩ <;> revert hs <;> decide


/-- C2.  When `normalize` succeeds, adjacent entries of its output are in
nondecreasing order of `position`. -/
theorem normalize_sorted_by_position (rawData : JSValue) (entries : List NormalizedEntry)
    (h : normalize rawData = .ok entries) :
    List.Chain' (fun a b => a.position ≤ b.position) entries := by
  cases rawData with
  | arr xs =>
    simp only [normalize] at h
    cases hn : normList xs with
    | error msg => rw [hn] at h; exact absurd h (by simp [Except.map])
    | ok ys =>
      rw [hn] at h
      simp only [Except.map] at h
      injection h with h
      subst h
      have hs := List.sorted_insertionSort entryLe ys
      exact List.Pairwise.chain' hs
  | null => simp [normalize] at h
  | undefined => simp [normalize] at h
  | bool b => simp [normalize] at h
  | num n => simp [normalize] at h
  | str s => simp [normalize] at h
  | obj fs => simp [normalize] at h

/-- C2 witness: a concrete two-record input whose entries come out ordered
by position. -/
theorem normalize_sorted_by_position_witness :
    List.Chain' (fun a b => a.position ≤ b.position) [sampleEntryB, sampleEntryA] :=
  normalize_sorted_by_position (.arr [sampleRecA, sampleRecB]) [sampleEntryB, sampleEntryA]
    (by rfl)

/-- The fields of a successfully normalized record, in terms of the raw
record. -/
theorem normRecord_ok_fields (r : JSValue) (e : NormalizedEntry) (h : normRecord r = .ok e) :
    e.id = jsToString (nullishCoalesce (getField r "id") (.str ""))
    ∧ e.type = jsToString (nullishCoalesce (getField r "type") (.str ""))
    ∧ e.part = getPart e.id e.type
    ∧ e.amendmentNumber = getAmendmentNumber e.id
    ∧ e.isRepealed = !(jsNullish (getField r "repealedOn"))
    ∧ e.repealedOn = stringOrNull (getField r "repealedOn") := by
  simp only [normRecord] at h
  split at h
  · exact absurd h (by simp)
  · split at h
    · exact absurd h (by simp)
    · split at h
      · exact absurd h (by simp)
      · injection h with h
        subst h
        exact ⟨rfl, rfl, rfl, rfl, rfl, rfl⟩

/-- Non-empty strings have positive length. -/
theorem string_length_pos_of_ne (s : String) (h : s ≠ "") : s.length > 0 := by
  cases s with
  | mk data =>
    cases data with
    | nil => simp at h
    | cons c cs => simp [String.length]

/-- C4 (amended).  `isRepealed` is true iff the raw record's `repealedOn`
is present (neither null nor undefined).  When the raw `repealedOn` is
absent, null, or a non-empty string — as for every record of the canonical
data — this coincides with the claim's formulation: `isRepealed` is true iff
the normalized `repealedOn` is non-null.  (A present empty-string
`repealedOn` yields `isRepealed = true` with a null normalized date, so the
coincidence needs that proviso.) -/
theorem isRepealed_iff_repealedOn (r : JSValue) (e : NormalizedEntry)
    (h : normRecord r = .ok e)
    (hgood : getField r "repealedOn" = .null ∨ getField r "repealedOn" = .undefined
      ∨ ∃ s, s ≠ "" ∧ getField r "repealedOn" = .str s) :
    (e.isRepealed = true ↔ e.repealedOn ≠ none) := by
  obtain ⟨-, -, -, -, hrep, hrOn⟩ := normRecord_ok_fields r e h
  rcases hgood with hg | hg | ⟨s, hs, hg⟩ <;> rw [hrep, hrOn, hg]
  · simp [jsNullish, stringOrNull]
  · simp [jsNullish, stringOrNull]
  · have hlen := string_length_pos_of_ne s hs
    simp [jsNullish, stringOrNull, hlen]

/-- C4 witness: the equivalence instantiated at a concrete record with a
non-empty repeal date. -/
theorem isRepealed_iff_repealedOn_witness :
    sampleEntryB.isRepealed = true ↔ sampleEntryB.repealedOn ≠ none :=
  isRepealed_iff_repealedOn sampleRecB sampleEntryB (by rfl)
    (Or.inr (Or.inr ⟨"1933-12-05", by decide, rfl⟩))

/-- C4 counterexample.  A record whose raw `repealedOn` is the empty string
normalizes with `isRepealed = true` but a null normalized `repealedOn`, so
"isRepealed iff normalized repeal date is non-null" fails as stated. -/
theorem isRepealed_empty_string_cex :
    normRecord sampleRecEmptyRepeal = .ok sampleEntryEmptyRepeal
    ∧ sampleEntryEmptyRepeal.isRepealed = true
    ∧ sampleEntryEmptyRepeal.repealedOn = none :=
  ⟨by rfl, rfl, rfl⟩


/-- `amendMatch` succeeds with value `n` exactly when the id decomposes as
`amend`, a non-empty run of ASCII digits of value `n`, and a hyphen. -/
theorem amendMatch_some_iff (id : String) (n : Nat) :
    amendMatch id = some n ↔
      ∃ ds rest, id.data = "amend".data ++ ds ++ '-' :: rest ∧ ds ≠ []
        ∧ (∀ c ∈ ds, c.isDigit = true) ∧ n = digitsVal ds := by
  constructor
  · intro h
    simp only [amendMatch] at h
    split at h
    case isTrue hpre =>
      obtain ⟨t, ht⟩ := List.isPrefixOf_iff_prefix.1 hpre
      have h5 : ("amend".data).length = 5 := by rfl
      have hdrop : id.data.drop 5 = t := by
        rw [← ht, ← h5]
        exact List.drop_left "amend".data t
      rw [hdrop] at h
      split at h
      case isTrue => exact absurd h (by simp)
      case isFalse hds =>
        split at h
        case h_1 c rest2 heq =>
          injection h with h
          obtain ⟨u, hu⟩ := List.takeWhile_prefix (l := t) (p := Char.isDigit)
          have hdru := List.drop_left (t.takeWhile Char.isDigit) u
          rw [hu] at hdru
          rw [hdru] at heq
          refine ⟨t.takeWhile Char.isDigit, rest2, ?_, ?_, ?_, h.symm⟩
          · have hid : id.data = "amend".data ++ t := ht.symm
            rw [← hu, heq] at hid
            simpa [List.append_assoc] using hid
          · intro hnil
            rw [hnil] at hds
            exact hds rfl
          · intro c hc
            exact List.mem_takeWhile_imp hc
        case h_2 => exact absurd h (by simp)
    case isFalse => exact absurd h (by simp)
  · rintro ⟨ds, rest, heq, hne, hdig, rfl⟩
    have hpre : "amend".data.isPrefixOf id.data = true := by
      rw [heq]
      exact List.isPrefixOf_iff_prefix.2 ⟨ds ++ '-' :: rest, by simp⟩
    have h5 : ("amend".data).length = 5 := by rfl
    have hdrop : id.data.drop 5 = ds ++ '-' :: rest := by
      rw [heq, ← h5]
      have hdl := List.drop_left "amend".data (ds ++ '-' :: rest)
      simp only [List.append_assoc] at hdl ⊢
      exact hdl
    have htake : (ds ++ '-' :: rest).takeWhile Char.isDigit = ds := by
      rw [List.takeWhile_append]
      rw [List.takeWhile_eq_self_iff.2 hdig]
      simp [List.takeWhile_cons]
    have hdrop2 : (ds ++ '-' :: rest).drop ds.length = '-' :: rest :=
      List.drop_left ds ('-' :: rest)
    simp only [amendMatch, hpre, if_true, hdrop, htake, hdrop2]
    rw [if_neg (by simpa using hne)]

/-- `amendMatch` succeeds exactly when the id matches the amendment pattern. -/
theorem amendMatch_isSome_iff (id : String) :
    (amendMatch id).isSome = true ↔
      ∃ ds rest, id.data = "amend".data ++ ds ++ '-' :: rest ∧ ds ≠ []
        ∧ ∀ c ∈ ds, c.isDigit = true := by
  constructor
  · intro h
    obtain ⟨m, hm⟩ := Option.isSome_iff_exists.1 h
    obtain ⟨ds, rest, heq, hne, hdig, -⟩ := (amendMatch_some_iff id m).1 hm
    exact ⟨ds, rest, heq, hne, hdig⟩
  · rintro ⟨ds, rest, heq, hne, hdig⟩
    rw [(amendMatch_some_iff id (digitsVal ds)).2 ⟨ds, rest, heq, hne, hdig, rfl⟩]
    rfl

/-- C6.  Every normalized entry's `part` is one of preamble/article/amendment:
preamble exactly when the (stringified) type is "preamble"; otherwise
amendment exactly when the type is "amendment" or the id matches the
anchored pattern `amend` + digits + hyphen; otherwise article.  Moreover
`amendmentNumber` is non-null exactly when the id matches that pattern, in
which case it is the captured digits' value. -/
theorem part_and_amendmentNumber_correct (r : JSValue) (e : NormalizedEntry)
    (h : normRecord r = .ok e) :
    (e.part = "preamble" ∨ e.part = "article" ∨ e.part = "amendment")
    ∧ (e.part = "preamble" ↔ e.type = "preamble")
    ∧ (e.type ≠ "preamble" →
        (e.part = "amendment" ↔ e.type = "amendment"
          ∨ ∃ ds rest, e.id.data = "amend".data ++ ds ++ '-' :: rest ∧ ds ≠ []
              ∧ ∀ c ∈ ds, c.isDigit = true))
    ∧ (e.type ≠ "preamble" → e.type ≠ "amendment"
        → ¬(∃ ds rest, e.id.data = "amend".data ++ ds ++ '-' :: rest ∧ ds ≠ []
            ∧ ∀ c ∈ ds, c.isDigit = true)
        → e.part = "article")
    ∧ (∀ n : Int, e.amendmentNumber = some n ↔
        ∃ ds rest, e.id.data = "amend".data ++ ds ++ '-' :: rest ∧ ds ≠ []
          ∧ (∀ c ∈ ds, c.isDigit = true) ∧ n = (digitsVal ds : Int)) := by
  obtain ⟨-, -, hpart, hnum, -, -⟩ := normRecord_ok_fields r e h
  refine ⟨?_, ?_, ?_, ?_, ?_⟩
  · rw [hpart]
    unfold getPart
    split_ifs <;> simp
  · rw [hpart]
    unfold getPart
    split_ifs with h1 h2
    · simp [h1]
    · constructor
      · intro hfalse
        exact absurd hfalse (by decide)
      · intro hty
        exact absurd hty h1
    · constructor
      · intro hfalse
        exact absurd hfalse (by decide)
      · intro hty
        exact absurd hty h1
  · intro htype
    rw [hpart]
    unfold getPart
    rw [if_neg htype]
    split_ifs with h2
    · simp only [true_iff]
      rw [Bool.or_eq_true] at h2
      rcases h2 with hor | hor
      · exact Or.inl (by simpa using hor)
      · exact Or.inr ((amendMatch_isSome_iff e.id).1 hor)
    · have h2x : e.type ≠ "amendment" ∧ ¬(amendMatch e.id).isSome = true := by
        simpa [not_or] using h2
      constructor
      · intro hfalse
        exact absurd hfalse (by decide)
      · rintro (hty | hpat)
        · exact absurd hty h2x.1
        · exact absurd ((amendMatch_isSome_iff e.id).2 hpat) h2x.2
  · intro htype htype2 hpat
    have hns : ¬(amendMatch e.id).isSome = true :=
      fun hsome => hpat ((amendMatch_isSome_iff e.id).1 hsome)
    rw [Bool.not_eq_true] at hns
    rw [hpart]
    unfold getPart
    rw [if_neg htype, if_neg (by simp [htype2, hns])]
  · intro n
    rw [hnum]
    unfold getAmendmentNumber
    constructor
    · intro hm
      cases hma : amendMatch e.id with
      | none => rw [hma] at hm; exact absurd hm (by simp)
      | some m =>
        rw [hma] at hm
        have hmn : (m : Int) = n := by simpa using hm
        obtain ⟨ds, rest, heq, hne, hdig, hval⟩ := (amendMatch_some_iff e.id m).1 hma
        exact ⟨ds, rest, heq, hne, hdig, by rw [← hmn, hval]⟩
    · rintro ⟨ds, rest, heq, hne, hdig, rfl⟩
      rw [(amendMatch_some_iff e.id (digitsVal ds)).2 ⟨ds, rest, heq, hne, hdig, rfl⟩]
      rfl

/-- C6 witness: the characterization instantiated at a concrete amendment
record (`amend2-s0`). -/
theorem part_and_amendmentNumber_correct_witness :
    (sampleEntryB.part = "preamble" ∨ sampleEntryB.part = "article"
        ∨ sampleEntryB.part = "amendment")
    ∧ (sampleEntryB.part = "preamble" ↔ sampleEntryB.type = "preamble")
    ∧ (sampleEntryB.type ≠ "preamble" →
        (sampleEntryB.part = "amendment" ↔ sampleEntryB.type = "amendment"
          ∨ ∃ ds rest, sampleEntryB.id.data = "amend".data ++ ds ++ '-' :: rest ∧ ds ≠ []
              ∧ ∀ c ∈ ds, c.isDigit = true))
    ∧ (sampleEntryB.type ≠ "preamble" → sampleEntryB.type ≠ "amendment"
        → ¬(∃ ds rest, sampleEntryB.id.data = "amend".data ++ ds ++ '-' :: rest ∧ ds ≠ []
            ∧ ∀ c ∈ ds, c.isDigit = true)
        → sampleEntryB.part = "article")
    ∧ (∀ n : Int, sampleEntryB.amendmentNumber = some n ↔
        ∃ ds rest, sampleEntryB.id.data = "amend".data ++ ds ++ '-' :: rest ∧ ds ≠ []
          ∧ (∀ c ∈ ds, c.isDigit = true) ∧ n = (digitsVal ds : Int)) :=
  part_and_amendmentNumber_correct sampleRecB sampleEntryB (by rfl)


/-- `m` occurs at the boundary of a decomposition. -/
theorem occursAt_decomp (m pre post : List Char) : occursAt m (pre ++ (m ++ post)) pre.length := by
  unfold occursAt
  rw [List.drop_left pre (m ++ post)]
  exact List.isPrefixOf_iff_prefix.2 (List.prefix_append m post)

/-- `findSplit` returns `none` exactly when the marker occurs nowhere. -/
theorem findSplit_eq_none_iff (m : List Char) (xs : List Char) :
    findSplit m xs = none ↔ ∀ i, ¬ occursAt m xs i := by
  induction xs with
  | nil =>
    simp only [findSplit]
    by_cases h : m.isPrefixOf ([] : List Char)
    · rw [if_pos h]
      exact iff_of_false (by simp) (fun hall => hall 0 (by simpa [occursAt] using h))
    · rw [if_neg h]
      refine iff_of_true rfl ?_
      intro i hc
      simp only [occursAt, List.drop_nil] at hc
      exact h hc
  | cons ch rest ih =>
    simp only [findSplit]
    by_cases h : m.isPrefixOf (ch :: rest)
    · rw [if_pos h]
      exact iff_of_false (by simp) (fun hall => hall 0 (by simpa [occursAt] using h))
    · rw [if_neg h]
      constructor
      · intro hnone i
        have hrest : findSplit m rest = none := by
          cases hr : findSplit m rest with
          | none => rfl
          | some p => rw [hr] at hnone; simp at hnone
        cases i with
        | zero =>
          intro hc
          exact h (by simpa [occursAt] using hc)
        | succ j =>
          intro hc
          exact (ih.1 hrest) j (by simpa [occursAt, List.drop_succ_cons] using hc)
      · intro hall
        have hrest : ∀ i, ¬ occursAt m rest i := fun i hc =>
          hall (i + 1) (by simpa [occursAt, List.drop_succ_cons] using hc)
        rw [ih.2 hrest]
        rfl

/-- A successful `findSplit` is the leftmost occurrence of the marker. -/
theorem findSplit_eq_some_spec (m xs p s' : List Char) (h : findSplit m xs = some (p, s')) :
    xs = p ++ (m ++ s') ∧ ∀ i, i < p.length → ¬ occursAt m xs i := by
  induction xs generalizing p s' with
  | nil =>
    simp only [findSplit] at h
    split at h
    case isTrue hp =>
      have hm : m = [] := by simpa using hp
      simp only [Option.some.injEq, Prod.mk.injEq] at h
      obtain ⟨h1, h2⟩ := h
      subst h1
      subst h2
      exact ⟨by simp [hm], fun i hi => absurd hi (by simp)⟩
    case isFalse => exact absurd h (by simp)
  | cons ch rest ih =>
    simp only [findSplit] at h
    split at h
    case isTrue hp =>
      obtain ⟨t, ht⟩ := List.isPrefixOf_iff_prefix.1 hp
      simp only [Option.some.injEq, Prod.mk.injEq] at h
      obtain ⟨h1, h2⟩ := h
      subst h1
      have hdrop : (ch :: rest).drop m.length = t := by
        rw [← ht]
        exact List.drop_left m t
      rw [hdrop] at h2
      subst h2
      exact ⟨by simpa using ht.symm, fun i hi => absurd hi (by simp)⟩
    case isFalse hp =>
      cases hr : findSplit m rest with
      | none => rw [hr] at h; simp at h
      | some q =>
        obtain ⟨q1, q2⟩ := q
        rw [hr] at h
        simp only [Option.map_some', Option.some.injEq, Prod.mk.injEq] at h
        obtain ⟨h1, h2⟩ := h
        subst h1
        subst h2
        obtain ⟨hxs, hmin⟩ := ih q1 q2 hr
        refine ⟨by rw [hxs]; simp, ?_⟩
        intro i hi
        cases i with
        | zero =>
          intro hc
          exact hp (by simpa [occursAt] using hc)
        | succ j =>
          intro hc
          exact hmin j (by simpa using hi) (by simpa [occursAt, List.drop_succ_cons] using hc)

/-- A template without `$` passes through `getSubstitution` unchanged. -/
theorem getSubstitution_no_dollar (matched before after tmpl : List Char)
    (h : '$' ∉ tmpl) : getSubstitution matched before after tmpl = tmpl := by
  induction tmpl with
  | nil => rfl
  | cons ch rest ih =>
    have hch : ch ≠ '$' := fun hh => h (hh ▸ List.mem_cons_self ch rest)
    have hrest : '$' ∉ rest := fun hh => h (List.mem_cons_of_mem ch hh)
    rw [getSubstitution.eq_def]
    simp only [if_neg hch]
    rw [ih hrest]

/-- C5 (amended).  `injectGenerated` fails exactly when no start-marker
occurrence is followed (at or after its end) by an end-marker occurrence;
on the leftmost such pair of occurrences it replaces the region from the
start marker through the nearest subsequent end marker by the template
start-marker, newline, content, newline, end-marker — as a JS string
replacement, i.e. with `$`-substitution applied to the template — leaving
the text before and after the region unchanged.  When markers and content
contain no `$`, the inserted text is the template itself, as the original
claim states. -/
theorem injectGenerated_correct (html s e c : List Char) :
    ((∃ msg, injectGenerated html s e c = .error msg) ↔
      ¬ ∃ i j, occursAt s html i ∧ occursAt e html j ∧ i + s.length ≤ j)
    ∧ (∀ pre mid post,
        html = pre ++ s ++ mid ++ e ++ post →
        (∀ i, i < pre.length → ¬ occursAt s html i) →
        (∀ i, i < mid.length → ¬ occursAt e (mid ++ e ++ post) i) →
        injectGenerated html s e c
          = .ok (pre
              ++ getSubstitution (s ++ mid ++ e) pre post (s ++ '\n' :: c ++ '\n' :: e)
              ++ post)
          ∧ ('$' ∉ s → '$' ∉ c → '$' ∉ e →
            injectGenerated html s e c = .ok (pre ++ s ++ '\n' :: c ++ '\n' :: e ++ post))) := by
  constructor
  · cases h1 : findSplit s html with
    | none =>
      have hval : injectGenerated html s e c = .error "Missing marker pair" := by
        simp only [injectGenerated, h1]
      refine iff_of_true ⟨_, hval⟩ ?_
      rintro ⟨i, j, hoi, -, -⟩
      exact ((findSplit_eq_none_iff s html).1 h1) i hoi
    | some pr =>
      obtain ⟨pre', rest'⟩ := pr
      obtain ⟨hdec1, hmin1⟩ := findSplit_eq_some_spec s html pre' rest' h1
      cases h2 : findSplit e rest' with
      | none =>
        have hval : injectGenerated html s e c = .error "Missing marker pair" := by
          simp only [injectGenerated, h1, h2]
        refine iff_of_true ⟨_, hval⟩ ?_
        rintro ⟨i, j, hoi, hoj, hle⟩
        have hige : pre'.length ≤ i := by
          by_contra hlt
          exact hmin1 i (by omega) hoi
        have hjge : (pre' ++ s).length ≤ j := by
          simp only [List.length_append]
          omega
        have hdrop : html.drop j = rest'.drop (j - (pre' ++ s).length) := by
          rw [hdec1, ← List.append_assoc]
          rw [List.drop_append_eq_append_drop]
          rw [List.drop_eq_nil_of_le hjge]
          rfl
        have hocc : occursAt e rest' (j - (pre' ++ s).length) := by
          simpa [occursAt, hdrop] using hoj
        exact ((findSplit_eq_none_iff e rest').1 h2) _ hocc
      | some md =>
        obtain ⟨mid', post'⟩ := md
        obtain ⟨hdec2, -⟩ := findSplit_eq_some_spec e rest' mid' post' h2
        have hval : injectGenerated html s e c
            = .ok (pre'
                ++ getSubstitution (s ++ mid' ++ e) pre' post' (s ++ '\n' :: c ++ '\n' :: e)
                ++ post') := by
          simp only [injectGenerated, h1, h2]
        refine iff_of_false (fun hex => ?_) ?_
        · obtain ⟨msg, hmsg⟩ := hex
          rw [hval] at hmsg
          exact absurd hmsg (by simp)
        · intro hno
          apply hno
          refine ⟨pre'.length, pre'.length + s.length + mid'.length, ?_, ?_, by omega⟩
          · rw [hdec1]
            exact occursAt_decomp s pre' rest'
          · have hsplit : html = ((pre' ++ s) ++ mid') ++ (e ++ post') := by
              rw [hdec1, hdec2]
              simp [List.append_assoc]
            have hlen : ((pre' ++ s) ++ mid').length
                = pre'.length + s.length + mid'.length := by
              rw [List.length_append, List.length_append]
            rw [hsplit, ← hlen]
            exact occursAt_decomp e ((pre' ++ s) ++ mid') post'
  · intro pre mid post hdec hminS hminE
    have hdec' : html = pre ++ (s ++ (mid ++ e ++ post)) := by
      rw [hdec]
      simp [List.append_assoc]
    have hoccS : occursAt s html pre.length := by
      rw [hdec']
      have := occursAt_decomp s pre (mid ++ e ++ post)
      simpa [List.append_assoc] using this
    cases h1 : findSplit s html with
    | none => exact absurd hoccS (((findSplit_eq_none_iff s html).1 h1) pre.length)
    | some pr =>
      obtain ⟨p', r'⟩ := pr
      obtain ⟨hd1, hm1⟩ := findSplit_eq_some_spec s html p' r' h1
      have hoccS' : occursAt s html p'.length := by
        rw [hd1]
        exact occursAt_decomp s p' r'
      have hlen1 : p'.length = pre.length := by
        have hn1 : ¬ p'.length < pre.length := fun hlt => hminS p'.length hlt hoccS'
        have hn2 : ¬ pre.length < p'.length := fun hlt => hm1 pre.length hlt hoccS
        omega
      have hpq : pre = p' ∧ s ++ (mid ++ e ++ post) = s ++ r' := by
        apply List.append_inj
        · rw [← hdec', hd1]
        · omega
      obtain ⟨hpre, hsr⟩ := hpq
      have hr' : r' = mid ++ e ++ post := (List.append_cancel_left hsr).symm
      subst hr'
      have hoccE : occursAt e (mid ++ e ++ post) mid.length := by
        have := occursAt_decomp e mid post
        simpa [List.append_assoc] using this
      cases h2 : findSplit e (mid ++ e ++ post) with
      | none =>
        exact absurd hoccE (((findSplit_eq_none_iff e _).1 h2) mid.length)
      | some md =>
        obtain ⟨q', t'⟩ := md
        obtain ⟨hd2, hm2⟩ := findSplit_eq_some_spec e (mid ++ e ++ post) q' t' h2
        have hoccE' : occursAt e (mid ++ e ++ post) q'.length := by
          rw [hd2]
          exact occursAt_decomp e q' t'
        have hlen2 : q'.length = mid.length := by
          have hn1 : ¬ q'.length < mid.length := fun hlt => hminE q'.length hlt hoccE'
          have hn2 : ¬ mid.length < q'.length := fun hlt => hm2 mid.length hlt hoccE
          omega
        have hqt : mid = q' ∧ e ++ post = e ++ t' := by
          apply List.append_inj
          · rw [← hd2]
            simp [List.append_assoc]
          · omega
        obtain ⟨hmid, het⟩ := hqt
        have ht' : t' = post := (List.append_cancel_left het).symm
        have hval : injectGenerated html s e c
            = .ok (p'
                ++ getSubstitution (s ++ q' ++ e) p' t' (s ++ '\n' :: c ++ '\n' :: e)
                ++ t') := by
          simp only [injectGenerated, h1, h2]
        rw [hval, ht', ← hpre, ← hmid]
        refine ⟨rfl, fun hds hdc hde => ?_⟩
        have hdt : '$' ∉ s ++ '\n' :: c ++ '\n' :: e := by
          intro hmem
          rcases List.mem_append.1 hmem with h1m | h2m
          · rcases List.mem_append.1 h1m with hA | hB
            · exact hds hA
            · rcases List.mem_cons.1 hB with hEq | hC
              · exact absurd hEq (by decide)
              · exact hdc hC
          · rcases List.mem_cons.1 h2m with hEq | hE
            · exact absurd hEq (by decide)
            · exact hde hE
        rw [getSubstitution_no_dollar _ _ _ _ hdt]
        simp [List.append_assoc]

/-- C5 counterexample.  A content string containing `$$` is not inserted
literally: JS string replacement collapses `$$` to a single `$`, so the
"replaced by ... the content ..." wording of the claim as stated fails. -/
theorem injectGenerated_dollar_cex :
    injectGenerated "xABmCDy".data "AB".data "CD".data "$$".data
      = .ok "xAB\n$\nCDy".data
    ∧ "xAB\n$\nCDy".data ≠ "xAB\n$$\nCDy".data :=
  ⟨by rfl, by decide⟩

/-- `normRecord` throws exactly on a `badRecord`. -/
theorem normRecord_error_iff (r : JSValue) :
    (∃ m, normRecord r = .error m) ↔ badRecord r := by
  constructor
  · rintro ⟨m, hm⟩
    simp only [normRecord] at hm
    split at hm
    case isTrue hobj => exact Or.inl (by simpa using hobj)
    case isFalse hobj =>
      split at hm
      case h_1 hpos => exact Or.inr (Or.inr (Or.inr (Or.inr hpos)))
      case h_2 =>
        split at hm
        case isTrue hempty =>
          rcases hempty with h | h | h
          · exact Or.inr (Or.inl h)
          · exact Or.inr (Or.inr (Or.inl h))
          · exact Or.inr (Or.inr (Or.inr (Or.inl h)))
        case isFalse => exact absurd hm (by simp)
  · intro hbad
    simp only [normRecord]
    split
    case isTrue => exact ⟨_, rfl⟩
    case isFalse hobj =>
      rcases hbad with h | h | h | h | h
      · exact absurd h (by simpa using hobj)
      · refine ⟨"Entry is missing required fields.", ?_⟩
        split
        · rfl
        · rw [if_pos (Or.inl h)]
      · refine ⟨"Entry is missing required fields.", ?_⟩
        split
        · rfl
        · rw [if_pos (Or.inr (Or.inl h))]
      · refine ⟨"Entry is missing required fields.", ?_⟩
        split
        · rfl
        · rw [if_pos (Or.inr (Or.inr h))]
      · refine ⟨"Entry is missing required fields.", ?_⟩
        rw [h]

/-- `normList` throws exactly when some record is bad. -/
theorem normList_error_iff (xs : List JSValue) :
    (∃ m, normList xs = .error m) ↔ ∃ r ∈ xs, badRecord r := by
  induction xs with
  | nil => simp [normList]
  | cons r rs ih =>
    constructor
    · rintro ⟨m, hm⟩
      simp only [normList] at hm
      cases hr : normRecord r with
      | error mr => exact ⟨r, by simp, (normRecord_error_iff r).1 ⟨mr, hr⟩⟩
      | ok er =>
        rw [hr] at hm
        cases hs : normList rs with
        | error ms =>
          obtain ⟨r', hr', hbad⟩ := ih.1 ⟨ms, hs⟩
          exact ⟨r', by simp [hr'], hbad⟩
        | ok es => rw [hs] at hm; exact absurd hm (by simp)
    · rintro ⟨r', hmem, hbad⟩
      simp only [List.mem_cons] at hmem
      rcases hmem with rfl | hmem
      · obtain ⟨m, hm⟩ := (normRecord_error_iff r').2 hbad
        exact ⟨m, by simp [normList, hm]⟩
      · cases hr : normRecord r with
        | error mr => exact ⟨mr, by simp [normList, hr]⟩
        | ok er =>
          obtain ⟨ms, hs⟩ := ih.2 ⟨r', hmem, hbad⟩
          exact ⟨ms, by simp [normList, hr, hs]⟩

/-- `normList` keeps one normalized entry per input record. -/
theorem normList_ok_length (xs : List JSValue) (ys : List NormalizedEntry)
    (h : normList xs = .ok ys) : ys.length = xs.length := by
  induction xs generalizing ys with
  | nil =>
    simp only [normList] at h
    injection h with h
    subst h
    rfl
  | cons r rs ih =>
    simp only [normList] at h
    cases hr : normRecord r with
    | error mr => rw [hr] at h; exact absurd h (by simp)
    | ok er =>
      rw [hr] at h
      cases hs : normList rs with
      | error ms => rw [hs] at h; exact absurd h (by simp)
      | ok es =>
        rw [hs] at h
        injection h with h
        subst h
        simp [ih es hs]

/-- C8.  `normalize` throws exactly when the input is not an array or some
element is a bad record (not a non-null object; empty stringified id, type,
or text; NaN position); when it succeeds it returns exactly one normalized
entry per input record — the entry list is a permutation (by the stable sort)
of the one-to-one normalization of the records, with equal length. -/
theorem normalize_error_and_totality (rawData : JSValue) :
    ((∃ msg, normalize rawData = .error msg) ↔
      (∀ xs, rawData ≠ .arr xs) ∨ ∃ xs, rawData = .arr xs ∧ ∃ r ∈ xs, badRecord r)
    ∧ (∀ xs entries, rawData = .arr xs → normalize rawData = .ok entries →
        ∃ ys, normList xs = .ok ys ∧ ys.length = xs.length ∧ entries.Perm ys) := by
  constructor
  · cases rawData with
    | arr xs =>
      cases hn : normList xs with
      | error m =>
        refine iff_of_true ⟨m, by simp [normalize, hn, Except.map]⟩ ?_
        exact Or.inr ⟨xs, rfl, (normList_error_iff xs).1 ⟨m, hn⟩⟩
      | ok ys =>
        refine iff_of_false ?_ ?_
        · rintro ⟨msg, hmsg⟩
          simp only [normalize, hn, Except.map] at hmsg
          exact absurd hmsg (by simp)
        · rintro (hall | ⟨xs', heq, hbad⟩)
          · exact hall xs rfl
          · have hxs : xs' = xs := by
              injection heq.symm
            subst hxs
            obtain ⟨m, hm⟩ := (normList_error_iff xs').2 hbad
            rw [hm] at hn
            exact absurd hn (by simp)
    | null => exact iff_of_true ⟨_, rfl⟩ (Or.inl (fun xs h => by injection h))
    | undefined => exact iff_of_true ⟨_, rfl⟩ (Or.inl (fun xs h => by injection h))
    | bool b => exact iff_of_true ⟨_, rfl⟩ (Or.inl (fun xs h => by injection h))
    | num n => exact iff_of_true ⟨_, rfl⟩ (Or.inl (fun xs h => by injection h))
    | str st => exact iff_of_true ⟨_, rfl⟩ (Or.inl (fun xs h => by injection h))
    | obj fs => exact iff_of_true ⟨_, rfl⟩ (Or.inl (fun xs h => by injection h))
  · intro xs entries harr hok
    subst harr
    simp only [normalize] at hok
    cases hn : normList xs with
    | error m => rw [hn] at hok; exact absurd hok (by simp [Except.map])
    | ok ys =>
      rw [hn] at hok
      simp only [Except.map] at hok
      injection hok with hok
      refine ⟨ys, rfl, normList_ok_length xs ys hn, ?_⟩
      rw [← hok]
      exact List.perm_insertionSort entryLe ys


/-- Membership in `insertUnique`. -/
theorem mem_insertUnique (xs : List Int) (n m : Int) :
    m ∈ insertUnique xs n ↔ m ∈ xs ∨ m = n := by
  unfold insertUnique
  by_cases h : n ∈ xs
  · rw [if_pos h]
    constructor
    · exact Or.inl
    · rintro (hm | rfl)
      · exact hm
      · exact h
  · rw [if_neg h]
    simp

/-- `insertUnique` preserves distinctness. -/
theorem nodup_insertUnique (xs : List Int) (n : Int) (h : xs.Nodup) :
    (insertUnique xs n).Nodup := by
  unfold insertUnique
  by_cases hn : n ∈ xs
  · rwa [if_pos hn]
  · rw [if_neg hn]
    refine List.nodup_append.2 ⟨h, by simp, ?_⟩
    intro a ha hb
    simp only [List.mem_singleton] at hb
    subst hb
    exact hn ha

/-- What `buildToc`'s scan accumulates over a list of entries, for any
starting accumulator. -/
theorem foldl_tocStep_spec (l : List NormalizedEntry) (acc : TocAcc) :
    ((l.foldl tocStep acc).hasPreamble = true ↔
      acc.hasPreamble = true ∨ ∃ e ∈ l, e.part = "preamble")
    ∧ (∀ n, n ∈ (l.foldl tocStep acc).articleNumbers ↔
        n ∈ acc.articleNumbers ∨ ∃ e ∈ l, e.part = "article" ∧ e.article = some n)
    ∧ (∀ n, n ∈ (l.foldl tocStep acc).amendmentNumbers ↔
        n ∈ acc.amendmentNumbers ∨ ∃ e ∈ l, e.part = "amendment" ∧ e.amendmentNumber = some n)
    ∧ (acc.articleNumbers.Nodup → (l.foldl tocStep acc).articleNumbers.Nodup)
    ∧ (acc.amendmentNumbers.Nodup → (l.foldl tocStep acc).amendmentNumbers.Nodup) := by
  induction l generalizing acc with
  | nil => simp
  | cons e l ih =>
    obtain ⟨ih1, ih2, ih3, ih4, ih5⟩ := ih (tocStep acc e)
    have hpre : (tocStep acc e).hasPreamble = (acc.hasPreamble || (e.part == "preamble")) := rfl
    have hart : (tocStep acc e).articleNumbers
        = (if e.part == "article" then
            match e.article with
            | some k => insertUnique acc.articleNumbers k
            | none => acc.articleNumbers
          else acc.articleNumbers) := rfl
    have hamd : (tocStep acc e).amendmentNumbers
        = (if e.part == "amendment" then
            match e.amendmentNumber with
            | some k => insertUnique acc.amendmentNumbers k
            | none => acc.amendmentNumbers
          else acc.amendmentNumbers) := rfl
    refine ⟨?_, ?_, ?_, ?_, ?_⟩
    · rw [List.foldl_cons, ih1, hpre]
      simp only [Bool.or_eq_true, beq_iff_eq, List.exists_mem_cons_iff]
      tauto
    · intro n
      rw [List.foldl_cons, ih2 n, hart]
      simp only [List.exists_mem_cons_iff]
      by_cases hpa : e.part = "article"
      · rw [if_pos (by simp [hpa])]
        cases harticle : e.article with
        | some k =>
          rw [mem_insertUnique]
          simp only [hpa, harticle, Option.some.injEq, true_and]
          constructor
          · rintro ((hm | rfl) | hl)
            · exact Or.inl hm
            · exact Or.inr (Or.inl rfl)
            · exact Or.inr (Or.inr hl)
          · rintro (hm | (rfl | hl))
            · exact Or.inl (Or.inl hm)
            · exact Or.inl (Or.inr rfl)
            · exact Or.inr hl
        | none =>
          simp only [hpa, harticle, true_and]
          constructor
          · rintro (hm | hl)
            · exact Or.inl hm
            · exact Or.inr (Or.inr hl)
          · rintro (hm | (hk | hl))
            · exact Or.inl hm
            · exact absurd hk (by simp)
            · exact Or.inr hl
      · rw [if_neg (by simp [hpa])]
        simp only [hpa, false_and, false_or]
    · intro n
      rw [List.foldl_cons, ih3 n, hamd]
      simp only [List.exists_mem_cons_iff]
      by_cases hpa : e.part = "amendment"
      · rw [if_pos (by simp [hpa])]
        cases hnum : e.amendmentNumber with
        | some k =>
          rw [mem_insertUnique]
          simp only [hpa, hnum, Option.some.injEq, true_and]
          constructor
          · rintro ((hm | rfl) | hl)
            · exact Or.inl hm
            · exact Or.inr (Or.inl rfl)
            · exact Or.inr (Or.inr hl)
          · rintro (hm | (rfl | hl))
            · exact Or.inl (Or.inl hm)
            · exact Or.inl (Or.inr rfl)
            · exact Or.inr hl
        | none =>
          simp only [hpa, hnum, true_and]
          constructor
          · rintro (hm | hl)
            · exact Or.inl hm
            · exact Or.inr (Or.inr hl)
          · rintro (hm | (hk | hl))
            · exact Or.inl hm
            · exact absurd hk (by simp)
            · exact Or.inr hl
      · rw [if_neg (by simp [hpa])]
        simp only [hpa, false_and, false_or]
    · intro hnd
      rw [List.foldl_cons]
      apply ih4
      rw [hart]
      by_cases hpa : e.part = "article"
      · rw [if_pos (by simp [hpa])]
        cases e.article with
        | some k => exact nodup_insertUnique _ k hnd
        | none => exact hnd
      · rwa [if_neg (by simp [hpa])]
    · intro hnd
      rw [List.foldl_cons]
      apply ih5
      rw [hamd]
      by_cases hpa : e.part = "amendment"
      · rw [if_pos (by simp [hpa])]
        cases e.amendmentNumber with
        | some k => exact nodup_insertUnique _ k hnd
        | none => exact hnd
      · rwa [if_neg (by simp [hpa])]


/-- C7.  The table of contents lists a Preamble link iff some entry is a
preamble; then the distinct article numbers, each exactly once in strictly
ascending order, under a "Part: Articles" heading present iff that set is
non-empty; then likewise the distinct amendment numbers under
"Part: Amendments"; and `buildToc` renders exactly these items. -/
theorem buildToc_correct (entries : List NormalizedEntry) :
    ∃ A M : List Int,
      A.Sorted (· < ·) ∧ M.Sorted (· < ·)
      ∧ (∀ n : Int, n ∈ A ↔ ∃ e ∈ entries, e.part = "article" ∧ e.article = some n)
      ∧ (∀ n : Int, n ∈ M ↔ ∃ e ∈ entries, e.part = "amendment" ∧ e.amendmentNumber = some n)
      ∧ tocItems entries
          = (if ∃ e ∈ entries, e.part = "preamble" then [preambleTocItem] else [])
            ++ (if A = [] then [] else articlesGroupItem :: A.map articleTocItem)
            ++ (if M = [] then [] else amendmentsGroupItem :: M.map amendmentTocItem)
      ∧ buildToc entries
          = "<ol class=\"toc-list\">\n"
            ++ String.intercalate "\n" ((tocItems entries).map (fun item => "  " ++ item))
            ++ "\n</ol>" := by
  obtain ⟨hp, hart, hamd, hnd1, hnd2⟩ := foldl_tocStep_spec entries ⟨false, [], []⟩
  have hcoll : tocCollect entries = entries.foldl tocStep ⟨false, [], []⟩ := rfl
  have hndA : (tocCollect entries).articleNumbers.Nodup := by
    rw [hcoll]; exact hnd1 (by simp)
  have hndM : (tocCollect entries).amendmentNumbers.Nodup := by
    rw [hcoll]; exact hnd2 (by simp)
  have hpermA := List.perm_insertionSort (fun a b : Int => a ≤ b)
    (tocCollect entries).articleNumbers
  have hpermM := List.perm_insertionSort (fun a b : Int => a ≤ b)
    (tocCollect entries).amendmentNumbers
  refine ⟨sortInts (tocCollect entries).articleNumbers,
    sortInts (tocCollect entries).amendmentNumbers, ?_, ?_, ?_, ?_, ?_, rfl⟩
  · exact (List.sorted_insertionSort _ _).lt_of_le (hpermA.nodup_iff.2 hndA)
  · exact (List.sorted_insertionSort _ _).lt_of_le (hpermM.nodup_iff.2 hndM)
  · intro n
    rw [sortInts, hpermA.mem_iff, hcoll, hart n]
    simp
  · intro n
    rw [sortInts, hpermM.mem_iff, hcoll, hamd n]
    simp
  · simp only [tocItems]
    refine congrArg₂ (· ++ ·) (congrArg₂ (· ++ ·) ?_ ?_) ?_
    · by_cases hpre : ∃ e ∈ entries, e.part = "preamble"
      · rw [if_pos hpre, if_pos]
        rw [hcoll, hp]
        simp [hpre]
      · rw [if_neg hpre, if_neg]
        rw [hcoll, hp]
        simp [hpre]
    · by_cases hA : sortInts (tocCollect entries).articleNumbers = []
      · rw [if_pos hA, if_pos (List.isEmpty_iff.2 hA)]
      · rw [if_neg hA, if_neg]
        intro hempty
        exact hA (List.isEmpty_iff.1 hempty)
    · by_cases hM : sortInts (tocCollect entries).amendmentNumbers = []
      · rw [if_pos hM, if_pos (List.isEmpty_iff.2 hM)]
      · rw [if_neg hM, if_neg]
        intro hempty
        exact hM (List.isEmpty_iff.1 hempty)


/-- `replaceAllChar` on a cons. -/
theorem replaceAllChar_cons (a : Char) (l : List Char) (c : Char) (rep : List Char) :
    replaceAllChar (a :: l) c rep = (if a = c then rep else [a]) ++ replaceAllChar l c rep := by
  simp [replaceAllChar]

/-- `replaceAllChar` distributes over append. -/
theorem replaceAllChar_append (l₁ l₂ : List Char) (c : Char) (rep : List Char) :
    replaceAllChar (l₁ ++ l₂) c rep = replaceAllChar l₁ c rep ++ replaceAllChar l₂ c rep := by
  simp [replaceAllChar]

/-- The five sequential global replacements of `escapeHtml` equal the
single-pass per-character escaping `escChar`. -/
theorem escapeHtml_chain_eq_flatMap (xs : List Char) :
    replaceAllChar
      (replaceAllChar
        (replaceAllChar
          (replaceAllChar
            (replaceAllChar xs '&' "&amp;".data)
            '<' "&lt;".data)
          '>' "&gt;".data)
        '"' "&quot;".data)
      '\'' "&#39;".data
    = xs.flatMap escChar := by
  induction xs with
  | nil => rfl
  | cons a rest ih =>
    rw [replaceAllChar_cons, replaceAllChar_append, replaceAllChar_append,
      replaceAllChar_append, replaceAllChar_append, ih, List.flatMap_cons]
    congr 1
    by_cases h1 : a = '&'
    · subst h1; rfl
    · by_cases h2 : a = '<'
      · subst h2; rfl
      · by_cases h3 : a = '>'
        · subst h3; rfl
        · by_cases h4 : a = '"'
          · subst h4; rfl
          · by_cases h5 : a = '\''
            · subst h5; rfl
            · simp [replaceAllChar, escChar, h1, h2, h3, h4, h5]

/-- The characters emitted for one input character contain no raw
markup-significant character. -/
theorem escChar_no_bad (a ch : Char) (h : ch ∈ escChar a) :
    ch ≠ '<' ∧ ch ≠ '>' ∧ ch ≠ '"' ∧ ch ≠ '\'' := by
  by_cases h1 : a = '&'
  · subst h1
    have hm : ch ∈ ['&', 'a', 'm', 'p', ';'] := h
    fin_cases hm <;> decide
  · by_cases h2 : a = '<'
    · subst h2
      have hm : ch ∈ ['&', 'l', 't', ';'] := by
        simp only [escChar, if_neg h1, if_pos rfl] at h
        exact h
      fin_cases hm <;> decide
    · by_cases h3 : a = '>'
      · subst h3
        have hm : ch ∈ ['&', 'g', 't', ';'] := by
          simp only [escChar, if_neg h1, if_neg h2, if_pos rfl] at h
          exact h
        fin_cases hm <;> decide
      · by_cases h4 : a = '"'
        · subst h4
          have hm : ch ∈ ['&', 'q', 'u', 'o', 't', ';'] := by
            simp only [escChar, if_neg h1, if_neg h2, if_neg h3, if_pos rfl] at h
            exact h
          fin_cases hm <;> decide
        · by_cases h5 : a = '\''
          · subst h5
            have hm : ch ∈ ['&', '#', '3', '9', ';'] := by
              simp only [escChar, if_neg h1, if_neg h2, if_neg h3, if_neg h4, if_pos rfl] at h
              exact h
            fin_cases hm <;> decide
          · simp only [escChar, if_neg h1, if_neg h2, if_neg h3, if_neg h4, if_neg h5,
              List.mem_singleton] at h
            subst h
            exact ⟨h2, h3, h4, h5⟩

/-- Appending chunk-wise: if every `&` inside the chunk starts an entity
within the chunk, and the tail is amp-good, so is the concatenation. -/
theorem ampGood_append (chunk t : List Char)
    (hc : ∀ i, i < chunk.length → chunk[i]? = some '&' →
      ∃ ent, ent ∈ htmlEntities ∧ ent <+: chunk.drop i)
    (ht : ampGood t) : ampGood (chunk ++ t) := by
  intro i hi
  by_cases hlt : i < chunk.length
  · rw [List.getElem?_append_left hlt] at hi
    obtain ⟨ent, hent, hpre⟩ := hc i hlt hi
    refine ⟨ent, hent, ?_⟩
    have hdrop : (chunk ++ t).drop i = chunk.drop i ++ t := by
      rw [List.drop_append_eq_append_drop, Nat.sub_eq_zero_of_le (Nat.le_of_lt hlt),
        List.drop_zero]
    rw [hdrop]
    exact hpre.trans (List.prefix_append _ t)
  · have hge : chunk.length ≤ i := Nat.le_of_not_lt hlt
    rw [List.getElem?_append_right hge] at hi
    obtain ⟨ent, hent, hpre⟩ := ht (i - chunk.length) hi
    refine ⟨ent, hent, ?_⟩
    have hdrop : (chunk ++ t).drop i = t.drop (i - chunk.length) := by
      rw [List.drop_append_eq_append_drop, List.drop_eq_nil_of_le hge, List.nil_append]
    rw [hdrop]
    exact hpre

/-- Every `&` inside one escaped chunk starts an entity within the chunk. -/
theorem escChar_ampGood (a : Char) :
    ∀ i, i < (escChar a).length → (escChar a)[i]? = some '&' →
      ∃ ent, ent ∈ htmlEntities ∧ ent <+: (escChar a).drop i := by
  by_cases h1 : a = '&'
  · subst h1; decide
  · by_cases h2 : a = '<'
    · subst h2; decide
    · by_cases h3 : a = '>'
      · subst h3; decide
      · by_cases h4 : a = '"'
        · subst h4; decide
        · by_cases h5 : a = '\''
          · subst h5; decide
          · intro i hi hamp
            simp only [escChar, if_neg h1, if_neg h2, if_neg h3, if_neg h4, if_neg h5,
              List.length_singleton] at hi hamp
            interval_cases i
            simp only [List.getElem?_cons_zero, Option.some.injEq] at hamp
            exact absurd hamp h1

/-- C10.  The output of `escapeHtml` contains no raw `<`, `>`, `"` or `'`,
and every `&` in it begins one of the entities `&amp;`, `&lt;`, `&gt;`,
`&quot;`, `&#39;` — so values embedded through `escapeHtml` appear in the
generated HTML only in escaped form. -/
theorem escapeHtml_safe (value : String) :
    (∀ ch ∈ (escapeHtml value).data, ch ≠ '<' ∧ ch ≠ '>' ∧ ch ≠ '"' ∧ ch ≠ '\'')
    ∧ ampGood (escapeHtml value).data := by
  have hdata : (escapeHtml value).data = value.data.flatMap escChar :=
    escapeHtml_chain_eq_flatMap value.data
  rw [hdata]
  constructor
  · intro ch hch
    obtain ⟨a, -, hcha⟩ := List.mem_flatMap.1 hch
    exact escChar_no_bad a ch hcha
  · induction value.data with
    | nil => intro i hi; simp at hi
    | cons a rest ih =>
      rw [List.flatMap_cons]
      exact ampGood_append (escChar a) (rest.flatMap escChar) (escChar_ampGood a) ih

end USConst
